import Mathlib

/-!
Verification of the CircleCI workflow test-report aggregation script
(`utils/process_circleci_workflow_test_reports.py`).

Machine strings are modelled as `List Char` (`PyStr`).  The Python string
primitives used by the script (`split`, `splitlines`, `strip`, `partition`,
`startswith`, substring membership, whitespace `split()`) are embedded as
executable functions on `PyStr`, matching CPython semantics; the one regular
expression in the script (`re.sub(r"_\d{2,}.*$", "", s)`) is embedded via an
explicit leftmost-match search.  `\d` is modelled as the ASCII digits and
`str.strip`/`str.lower`/`str.splitlines` are modelled on their ASCII /
`'\n'`-terminated behaviour, which is exact on the ASCII artifact text the
script consumes.
-/

/-- A Python string, modelled as its list of characters. -/
abbrev PyStr := List Char

/-- Python whitespace for `str.strip()` / `str.split()` (ASCII fragment). -/
def pyWS (c : Char) : Bool :=
  c = ' ' ∨ c = '\t' ∨ c = '\n' ∨ c = '\r' ∨ c = '\x0b' ∨ c = '\x0c'

/-- Python `s.startswith(pat)`. -/
def pyStartsWith : PyStr → PyStr → Bool
  | _, [] => true
  | [], _ :: _ => false
  | c :: cs, p :: ps => c = p && pyStartsWith cs ps

/-- Python substring membership `pat in s`. -/
def pyContains : PyStr → PyStr → Bool
  | [], pat => pat.isEmpty
  | c :: cs, pat => pyStartsWith (c :: cs) pat || pyContains cs pat

/-- Python `s.strip()`: drop leading and trailing whitespace. -/
def pyStrip (s : PyStr) : PyStr :=
  ((s.dropWhile pyWS).reverse.dropWhile pyWS).reverse

/-- Python `s.lower()` (ASCII). -/
def pyLower (s : PyStr) : PyStr := s.map Char.toLower

/-- Python `s.split(sep)` for a one-character separator `sep`. -/
def splitCh (sep : Char) : PyStr → List PyStr
  | [] => [[]]
  | c :: cs =>
    if c = sep then [] :: splitCh sep cs
    else
      match splitCh sep cs with
      | [] => [[c]]
      | p :: ps => (c :: p) :: ps

/-- Python `s.split("::")`: split on leftmost non-overlapping occurrences of `"::"`. -/
def splitDC : PyStr → List PyStr
  | [] => [[]]
  | [c] => [[c]]
  | c :: d :: cs =>
    if c = ':' ∧ d = ':' then [] :: splitDC cs
    else
      match splitDC (d :: cs) with
      | [] => [[c]]
      | p :: ps => (c :: p) :: ps

/-- Whether a string contains `"::"`. -/
def hasDC : PyStr → Bool
  | [] => false
  | [_] => false
  | c :: d :: cs => (c = ':' && d = ':') || hasDC (d :: cs)

/-- Python `"::".join(parts)`. -/
def joinDC : List PyStr → PyStr
  | [] => []
  | [p] => p
  | p :: q :: ps => p ++ ':' :: ':' :: joinDC (q :: ps)

/-- Python `s.split()` with no argument: whitespace runs separate tokens, no
empty tokens are produced. -/
def splitWS : PyStr → List PyStr
  | [] => []
  | [c] => if pyWS c then [] else [[c]]
  | c :: d :: cs =>
    if pyWS c then splitWS (d :: cs)
    else
      if pyWS d then [c] :: splitWS (d :: cs)
      else
        match splitWS (d :: cs) with
        | [] => [[c]]
        | t :: ts => (c :: t) :: ts

/-- Split at the first occurrence of `pat`: `some (before, after)`, or `none`
when `pat` does not occur.  Backs `str.partition`. -/
def splitAtSub : PyStr → PyStr → Option (PyStr × PyStr)
  | [], _ => none
  | c :: cs, pat =>
    if pyStartsWith (c :: cs) pat then some ([], (c :: cs).drop pat.length)
    else
      match splitAtSub cs pat with
      | some (pre, post) => some (c :: pre, post)
      | none => none

/-- Python `s.partition(pat)`: `(head, sep, tail)`, with `(s, "", "")` when
`pat` does not occur. -/
def pyPartition (s pat : PyStr) : PyStr × PyStr × PyStr :=
  match splitAtSub s pat with
  | some (pre, post) => (pre, pat, post)
  | none => (s, [], [])

/-- Python `s.splitlines()` (modelled for `'\n'` / `"\r\n"` terminators): split on
`'\n'`, drop a final empty piece, strip one trailing `'\r'` per line. -/
def pySplitlines (s : PyStr) : List PyStr :=
  let ls := splitCh '\n' s
  let ls := if ls.getLast? = some [] then ls.dropLast else ls
  ls.map fun l => if l.getLast? = some '\r' then l.dropLast else l

/-- ASCII decimal digit (`\d` of the script's regex). -/
def pyDigit (c : Char) : Bool := '0' ≤ c && c ≤ '9'

/-- Whether the regex `_\d{2,}.*$` matches at the start of `u`, where `u` is a
suffix of the subject string: an underscore, two digits, and then no newline
strictly before the final character of `u` (Python `.` does not match `'\n'`
and `$` matches at the end or just before a final `'\n'`). -/
def numSuffixMatch : PyStr → Bool
  | '_' :: d1 :: d2 :: rest => pyDigit d1 && pyDigit d2 && rest.dropLast.all (· ≠ '\n')
  | _ => false

/-- Python `re.sub` of the pattern on `s`: delete from the leftmost match to the end,
keeping a final newline when `$` matched just before it. -/
def subNumSuffix : PyStr → PyStr
  | [] => []
  | c :: cs =>
    if numSuffixMatch (c :: cs) then
      if (c :: cs).getLast? = some '\n' then ['\n'] else []
    else c :: subNumSuffix cs

/-- Python `test_name.split("[", 1)[0]`: the portion before the first `'['`. -/
def takeBeforeLB (s : PyStr) : PyStr := s.takeWhile (· ≠ '[')

/-- The function `_normalize_test_name` of the script: truncate at the first `'['`, split
on `"::"`, strip a `_\d{2,}.*$` suffix from the last segment, rejoin. -/
def _normalize_test_name (test_name : PyStr) : PyStr :=
  let base_name := takeBeforeLB test_name
  let parts := splitDC base_name
  let parts :=
    if parts = [] then parts
    else parts.dropLast ++ [subNumSuffix (parts.getLastD [])]
  joinDC parts

/-- The function `_extract_model_name` of the script: the path before the first `"::"`;
when it starts with `"tests/models/"` and has at least three `'/'`-separated
segments, the segment at index 2, otherwise `None`. -/
def _extract_model_name (test_node_id : PyStr) : Option PyStr :=
  let file_path := (splitDC test_node_id).headD []
  if pyStartsWith file_path "tests/models/".data then
    let parts := splitCh '/' file_path
    if parts.length ≥ 3 then some (parts.getD 2 [])
    else none
  else none

/-- Insertion-ordered dict write `d[k] = v`: overwrite the first matching key,
append otherwise. -/
def dictSet : List (PyStr × PyStr) → PyStr → PyStr → List (PyStr × PyStr)
  | [], k, v => [(k, v)]
  | (k', v') :: rest, k, v =>
    if k' = k then (k', v) :: rest else (k', v') :: dictSet rest k v

/-- The summary-block loop of the script (one node), over its lines:
`PASSED `-lines record `"passed"`, `FAILED `-lines record the first
whitespace-delimited token after the prefix as `"failed"`.  The `[0]` index on
Python's `split()` result is fallible, so the loop is embedded in `Except`:
`.error` is the `IndexError` CPython raises when nothing follows `FAILED `. -/
def parseSummaryLines : List PyStr → List (PyStr × PyStr) →
    Except PyStr (List (PyStr × PyStr))
  | [], acc => .ok acc
  | line :: rest, acc =>
    if pyStartsWith line "PASSED ".data then
      parseSummaryLines rest (dictSet acc (line.drop 7) "passed".data)
    else if pyStartsWith line "FAILED ".data then
      match splitWS (line.drop 7) with
      | [] => .error "IndexError: list index out of range".data
      | t :: _ => parseSummaryLines rest (dictSet acc t "failed".data)
    else parseSummaryLines rest acc

/-- The summary-block parse of one node's `summary_short.txt` text. -/
def parseSummaryBlock (text : PyStr) : Except PyStr (List (PyStr × PyStr)) :=
  parseSummaryLines (pySplitlines text) []

/-- Filter of one raw `failures_line.txt` line: strip it, keep it when it is
non-empty, starts with neither `'='` nor `'_'`, contains `": "`, and is not
the `"short test summary"` banner. -/
def keepDetailLine (raw : PyStr) : Option PyStr :=
  let line := pyStrip raw
  if line ≠ [] ∧ ¬ pyStartsWith line "=".data ∧ ¬ pyStartsWith line "_".data
      ∧ pyContains line ": ".data then
    if ¬ pyStartsWith (pyLower line) "short test summary".data then some line
    else none
  else none

/-- The filtered failure-detail sequence of one node. -/
def filterFailureLines (text : PyStr) : List PyStr :=
  (pySplitlines text).filterMap keepDetailLine

/-- A failure record as built by the script. -/
structure FailureEntry where
  job_name : PyStr
  test_name : PyStr
  error : PyStr
  model_name : Option PyStr
deriving DecidableEq, Repr

instance : Inhabited FailureEntry := ⟨⟨[], [], [], none⟩⟩

/-- A summary line that the correlation loop treats as a real failure:
starts with `FAILED ` and does not contain `" - Failed: (subprocess)"`. -/
def isRealFailureLine (line : PyStr) : Bool :=
  pyStartsWith line "FAILED ".data
    && ! pyContains line " - Failed: (subprocess)".data

/-- The short error embedded in a summary line: the text after the first
`" - "` of the stripped remainder after `FAILED `. -/
def shortErrorOf (line : PyStr) : PyStr :=
  (pyPartition (pyStrip (line.drop 7)) " - ".data).2.2

/-- The test identifier of a summary line: the stripped text before the first
`" - "` of the stripped remainder after `FAILED `. -/
def testNameOf (line : PyStr) : PyStr :=
  pyStrip (pyPartition (pyStrip (line.drop 7)) " - ".data).1

/-- The correlation loop of the script (lines 169-182): walk the summary
lines; each real failure line yields an entry whose error is the detail line
at the running index `failure_idx` when one is left, and the line's own short
error otherwise. -/
def collectAux (job_name : PyStr) (details : List PyStr) :
    List PyStr → Nat → List FailureEntry
  | [], _ => []
  | line :: rest, failure_idx =>
    if isRealFailureLine line then
      let full_error :=
        if failure_idx < details.length then details.getD failure_idx []
        else shortErrorOf line
      { job_name := job_name, test_name := testNameOf line,
        error := full_error,
        model_name := _extract_model_name (testNameOf line) }
        :: collectAux job_name details rest (failure_idx + 1)
    else collectAux job_name details rest failure_idx

/-- Failure collection for one node: summary text plus (possibly absent)
failure-detail text; an absent `failures_line.txt` behaves as empty text. -/
def collectFailures (job_name summary_text detail_text : PyStr) :
    List FailureEntry :=
  collectAux job_name (filterFailureLines detail_text)
    (pySplitlines summary_text) 0

/-- One aggregation group: occurrence count plus the error tally
(`collections.Counter` as an insertion-ordered association list). -/
structure GroupInfo where
  count : Nat
  errors : List (PyStr × Nat)
deriving DecidableEq, Repr

/-- An insertion-ordered Python dict keyed by strings. -/
abbrev AggMap := List (PyStr × GroupInfo)

/-- Insertion-ordered update-or-append on an association list: apply `upd` to
the value of the first matching key, append `(k, init)` otherwise. -/
def updAssoc (upd : β → β) (init : β) (k : PyStr) : List (PyStr × β) → List (PyStr × β)
  | [] => [(k, init)]
  | (k', v) :: rest =>
    if k' = k then (k', upd v) :: rest else (k', v) :: updAssoc upd init k rest

/-- Python `Counter` increment of the tally at `err`. -/
def counterAdd (t : List (PyStr × Nat)) (err : PyStr) : List (PyStr × Nat) :=
  updAssoc (· + 1) 1 err t

/-- One group update of the aggregation loop: ensure the key, then
`count += 1` and `errors[error] += 1`. -/
def addFailure (m : AggMap) (key err : PyStr) : AggMap :=
  updAssoc (fun g => ⟨g.count + 1, counterAdd g.errors err⟩)
    ⟨1, [(err, 1)]⟩ key m

/-- Stable insertion into a count-descending list: place `x` after every
element with a strictly greater count. -/
def insertByCount (x : PyStr × Nat) : List (PyStr × Nat) → List (PyStr × Nat)
  | [] => [x]
  | y :: ys => if y.2 > x.2 then y :: insertByCount x ys else x :: y :: ys

/-- Python `Counter.most_common()`: the tally sorted by descending count; CPython's
`sorted(..., reverse=True)` is stable, embedded as a stable insertion sort. -/
def mostCommon (t : List (PyStr × Nat)) : List (PyStr × Nat) :=
  t.foldr insertByCount []

/-- The loop body of `_aggregate_failures`: update by-test always, by-model
only when `model_name` is truthy (present and non-empty). -/
def aggStep (acc : AggMap × AggMap) (entry : FailureEntry) : AggMap × AggMap :=
  let normalized := _normalize_test_name entry.test_name
  let by_test := addFailure acc.1 normalized entry.error
  let by_model :=
    match entry.model_name with
    | some m => if m = [] then acc.2 else addFailure acc.2 m entry.error
    | none => acc.2
  (by_test, by_model)

/-- The function `_aggregate_failures` of the script: the aggregation loop followed by
the `most_common()` conversion of each group's error tally. -/
def _aggregate_failures (failure_entries : List FailureEntry) : AggMap × AggMap :=
  let p := failure_entries.foldl aggStep ([], [])
  (p.1.map (fun kg => (kg.1, ⟨kg.2.count, mostCommon kg.2.errors⟩)),
   p.2.map (fun kg => (kg.1, ⟨kg.2.count, mostCommon kg.2.errors⟩)))

/-- Python `str(n)` for the count cell. -/
def natStr (n : Nat) : PyStr := (Nat.repr n).data

/-- The `Error(s)` cell: `"; ".join(f"{count}× {msg}")` over the tally. -/
def errorsCell (errors : List (PyStr × Nat)) : PyStr :=
  List.intercalate "; ".data
    (errors.map fun p => natStr p.2 ++ "× ".data ++ p.1)

/-- One table row `| {key} | {count} | {errors} |`. -/
def rowLine (key : PyStr) (info : GroupInfo) : PyStr :=
  "| ".data ++ key ++ " | ".data ++ natStr info.count ++ " | ".data
    ++ errorsCell info.errors ++ " |".data

/-- Stable insertion of a group by descending count (the renderer's
`sorted(..., key=count, reverse=True)`). -/
def insertGroup (x : PyStr × GroupInfo) : AggMap → AggMap
  | [] => [x]
  | y :: ys => if y.2.count > x.2.count then y :: insertGroup x ys else x :: y :: ys

/-- Rows of a table, sorted by descending failure count (stable). -/
def sortGroups (m : AggMap) : AggMap := m.foldr insertGroup []

/-- The `lines` list of `_create_markdown_report`: heading, then either the
two tables (gated on the by-test mapping being non-empty) or the no-failures
sentence. -/
def reportLines (failures_by_test failures_by_model : AggMap) : List PyStr :=
  "# Failure summary\n".data ::
    (if failures_by_test ≠ [] then
      "## By test\n".data :: "| Test | Failures | Error(s) |".data
        :: "| --- | --- | --- |".data
        :: (sortGroups failures_by_test).map (fun kg => rowLine kg.1 kg.2)
      ++ [[]]
      ++ "## By model\n".data :: "| Model | Failures | Error(s) |".data
        :: "| --- | --- | --- |".data
        :: (sortGroups failures_by_model).map (fun kg => rowLine kg.1 kg.2)
    else ["No failures were reported.\n".data])

/-- The function `_create_markdown_report` of the script: `"\n".join(lines)`. -/
def _create_markdown_report (failures_by_test failures_by_model : AggMap) : PyStr :=
  List.intercalate "\n".data (reportLines failures_by_test failures_by_model)

/-- The Model Extractor rule as the specification states it: the portion
before the first `"::"`; a result exactly when it starts with the literal
prefix `"tests/models/"` and has at least three `'/'`-delimited segments, in
which case the model name is the segment at index 2 (zero-based). -/
def extractModelSpec (test_node_id : PyStr) : Option PyStr :=
  let path := (splitDC test_node_id).headD []
  if pyStartsWith path "tests/models/".data ∧ 3 ≤ (splitCh '/' path).length then
    (splitCh '/' path)[2]?
  else none

/-- Total failure count of an aggregated mapping. -/
def sumCounts (m : AggMap) : Nat := (m.map fun p => p.2.count).sum

/-- Python truthiness of `entry["model_name"]`: present and non-empty. -/
def hasModel (e : FailureEntry) : Bool :=
  match e.model_name with
  | some m => m ≠ []
  | none => false

/-- Association-list lookup (`m[k]` on an insertion-ordered dict). -/
def lookupA (k : PyStr) : List (PyStr × α) → Option α
  | [] => none
  | (k', v) :: rest => if k' = k then some v else lookupA k rest

/-- The keys of an insertion-ordered dict, in order. -/
def keysOf (m : List (PyStr × α)) : List PyStr := m.map Prod.fst

/-- The by-test key/error stream fed to the aggregation loop. -/
def testPairs (es : List FailureEntry) : List (PyStr × PyStr) :=
  es.map fun e => (_normalize_test_name e.test_name, e.error)

/-- The by-model key/error stream fed to the aggregation loop: exactly the
entries whose `model_name` is truthy (present and non-empty). -/
def modelPairs (es : List FailureEntry) : List (PyStr × PyStr) :=
  es.filterMap fun e =>
    match e.model_name with
    | some m => if m = [] then none else some (m, e.error)
    | none => none

/-- Fold a key/error stream into an aggregation mapping. -/
def buildMap (ps : List (PyStr × PyStr)) : AggMap :=
  ps.foldl (fun m p => addFailure m p.1 p.2) []

/-- The errors of a stream that belong to group `k`, in stream order. -/
def streamFor (k : PyStr) (ps : List (PyStr × PyStr)) : List PyStr :=
  ps.filterMap fun p => if p.1 = k then some p.2 else none

/-- A `Counter` built over a list of error messages. -/
def pyTally (errs : List PyStr) : List (PyStr × Nat) :=
  errs.foldl counterAdd []

/-- The group an error stream produces: `none` for the empty stream. -/
def groupOf (errs : List PyStr) : Option GroupInfo :=
  if errs = [] then none else some ⟨errs.length, pyTally errs⟩

/-- First occurrences of a key stream, in order, skipping keys already in
`seen`: the key order of an insertion-ordered dict built over the stream. -/
def dedupSeen : List PyStr → List PyStr → List PyStr
  | [], _ => []
  | k :: ks, seen =>
    if k ∈ seen then dedupSeen ks seen else k :: dedupSeen ks (seen ++ [k])

/-- Index of the first occurrence of `m` in a list (list length if absent). -/
def firstOcc : List PyStr → PyStr → Nat
  | [], _ => 0
  | x :: xs, m => if x = m then 0 else firstOcc xs m + 1

/-! ### Claim C1: the summary parse raises on `FAILED ` followed by nothing -/

/-- Claim C1 (settled as a code bug): the summary-block parse is not total.
A line consisting of the prefix `FAILED ` followed by nothing, or by
whitespace only, makes the script raise `IndexError` at
`line[len("FAILED "):].split()[0]`, where the claim and the specification
require the line to be skipped. -/
theorem c1_summary_parse_raises :
    parseSummaryBlock "FAILED ".data
        = .error "IndexError: list index out of range".data
    ∧ parseSummaryBlock "PASSED a::b\nFAILED \t ".data
        = .error "IndexError: list index out of range".data
    ∧ parseSummaryBlock "PASSED a::b\nFAILED c::d - boom".data
        = .ok [("a::b".data, "passed".data), ("c::d".data, "failed".data)] :=
  ⟨rfl, rfl, rfl⟩

/-! ### Claim C6: the Model Extractor rule -/

/-- Claim C6: the Model Extractor returns the third `/`-delimited segment
(index 2) of the portion before the first `::` exactly when that portion
starts with `tests/models/` and has at least three segments, and `none`
otherwise; in particular `"bart"` for the bart test path and `none` for a
non-model path. -/
theorem c6_extract_model_rule :
    (∀ s : PyStr, _extract_model_name s = extractModelSpec s)
    ∧ _extract_model_name
        "tests/models/bart/test_modeling_bart.py::TestBart::test_x".data
        = some "bart".data
    ∧ _extract_model_name "tests/other/test_x.py::test_y".data = none := by
  refine ⟨fun s => ?_, by decide, by decide⟩
  unfold _extract_model_name extractModelSpec
  by_cases h1 : pyStartsWith ((splitDC s).headD []) "tests/models/".data
  · by_cases h2 : 3 ≤ (splitCh '/' ((splitDC s).headD [])).length
    · rw [if_pos h1, if_pos (show (splitCh '/' ((splitDC s).headD [])).length ≥ 3 from h2),
        if_pos ⟨h1, h2⟩, List.getElem?_eq_getElem (show 2 < _ by omega),
        List.getD_eq_getElem?_getD, List.getElem?_eq_getElem (show 2 < _ by omega)]
      rfl
    · rw [if_pos h1, if_neg (show ¬ (splitCh '/' ((splitDC s).headD [])).length ≥ 3 from h2),
        if_neg (by exact fun h => h2 h.2)]
  · rw [if_neg h1, if_neg (by exact fun h => h1 h.1)]

/-! ### Claim C2: the renderer's emptiness gate -/

theorem rowLine_cons (k : PyStr) (g : GroupInfo) :
    ∃ t, rowLine k g = '|' :: t :=
  ⟨_, rfl⟩

theorem no_failures_not_mem_rows (m : AggMap) :
    "No failures were reported.\n".data ∉ m.map fun kg => rowLine kg.1 kg.2 := by
  intro h
  rcases List.mem_map.1 h with ⟨kg, -, heq⟩
  rcases rowLine_cons kg.1 kg.2 with ⟨t, ht⟩
  rw [ht] at heq
  exact absurd (List.head_eq_of_cons_eq heq.symm) (by decide)

/-- Claim C2, counterexample: with an empty by-test mapping and a non-empty
by-model mapping, the renderer still emits the no-failures sentence and no
`By model` table, contrary to the claimed if-and-only-if on both mappings. -/
theorem c2_counterexample :
    "No failures were reported.\n".data
        ∈ reportLines [] [("bart".data, ⟨1, [("err".data, 1)]⟩)]
    ∧ "## By model\n".data
        ∉ reportLines [] [("bart".data, ⟨1, [("err".data, 1)]⟩)] := by
  constructor
  · decide
  · decide

/-- Claim C2 as amended: the renderer tests only the by-test mapping.  It
emits the no-failures sentence exactly when by-test is empty (regardless of
by-model), and it emits the `By test` and `By model` tables exactly when
by-test is non-empty; for an input where by-test is empty but by-model is
non-empty, no `By model` table is emitted. -/
theorem c2_renderer_gate (bt bm : AggMap) :
    ("No failures were reported.\n".data ∈ reportLines bt bm ↔ bt = [])
    ∧ ("## By test\n".data ∈ reportLines bt bm ↔ bt ≠ [])
    ∧ ("## By model\n".data ∈ reportLines bt bm ↔ bt ≠ []) := by
  by_cases h : bt = []
  · subst h
    refine ⟨by simp [reportLines], ?_, ?_⟩ <;> simp [reportLines]
  · rw [reportLines, if_pos h]
    refine ⟨?_, ?_, ?_⟩
    · constructor
      · intro hmem
        simp only [List.mem_cons, List.mem_append, List.mem_singleton] at hmem
        casesm* _ ∨ _
        all_goals
          first
          | exact absurd (by assumption) (no_failures_not_mem_rows (sortGroups bt))
          | exact absurd (by assumption) (no_failures_not_mem_rows (sortGroups bm))
          | exact absurd (by assumption) (by decide)
      · intro h1
        exact absurd h1 h
    · constructor
      · intro _
        exact h
      · intro _
        exact List.mem_cons_of_mem _ (List.mem_cons_self _ _)
    · constructor
      · intro _
        exact h
      · intro _
        exact List.mem_cons_of_mem _ (List.mem_cons_of_mem _ (List.mem_cons_of_mem _
          (List.mem_cons_of_mem _
            (List.mem_append_right _ (List.mem_cons_self _ _)))))

/-! ### Claims C3 and C10: aggregation invariants -/

theorem updAssoc_ne_nil (u : β → β) (i : β) (k : PyStr)
    (m : List (PyStr × β)) : updAssoc u i k m ≠ [] := by
  cases m with
  | nil => exact List.cons_ne_nil _ _
  | cons p rest =>
    obtain ⟨k', v⟩ := p
    unfold updAssoc
    by_cases h : k' = k
    · rw [if_pos h]
      exact List.cons_ne_nil _ _
    · rw [if_neg h]
      exact List.cons_ne_nil _ _

theorem sum_map_updAssoc (f : β → Nat) (u : β → β) (i : β) (k : PyStr)
    (hu : ∀ v, f (u v) = f v + 1) (hi : f i = 1) (m : List (PyStr × β)) :
    ((updAssoc u i k m).map fun p => f p.2).sum
      = (m.map fun p => f p.2).sum + 1 := by
  induction m with
  | nil => simp [updAssoc, hi]
  | cons p rest ih =>
    obtain ⟨k', v⟩ := p
    by_cases h : k' = k
    · simp [updAssoc, h, hu]
      omega
    · simp [updAssoc, h, ih]
      omega

theorem sumCounts_addFailure (m : AggMap) (k err : PyStr) :
    sumCounts (addFailure m k err) = sumCounts m + 1 :=
  sum_map_updAssoc GroupInfo.count _ _ k (fun _ => rfl) rfl m

theorem foldl_aggStep_sums (es : List FailureEntry) :
    ∀ a b : AggMap,
      sumCounts (es.foldl aggStep (a, b)).1 = sumCounts a + es.length
      ∧ sumCounts (es.foldl aggStep (a, b)).2
          = sumCounts b + es.countP hasModel := by
  induction es with
  | nil =>
    intro a b
    simp [List.countP_nil]
  | cons e rest ih =>
    intro a b
    rw [List.foldl_cons]
    have hstep : aggStep (a, b) e
        = (addFailure a (_normalize_test_name e.test_name) e.error,
           match e.model_name with
           | some m => if m = [] then b else addFailure b m e.error
           | none => b) := rfl
    rw [hstep]
    obtain ⟨ih1, ih2⟩ := ih (addFailure a (_normalize_test_name e.test_name) e.error)
      (match e.model_name with
       | some m => if m = [] then b else addFailure b m e.error
       | none => b)
    constructor
    · rw [ih1, sumCounts_addFailure]
      simp
      omega
    · rw [ih2, List.countP_cons]
      have : sumCounts
          (match e.model_name with
           | some m => if m = [] then b else addFailure b m e.error
           | none => b)
          = sumCounts b + (if hasModel e then 1 else 0) := by
        unfold hasModel
        match e.model_name with
        | none => simp
        | some m =>
          by_cases hm : m = [] <;> simp [hm, sumCounts_addFailure]
      rw [this]
      unfold hasModel
      omega

theorem sumCounts_finalize (m : AggMap) :
    sumCounts (m.map fun kg => (kg.1, ⟨kg.2.count, mostCommon kg.2.errors⟩))
      = sumCounts m := by
  unfold sumCounts
  rw [List.map_map]
  rfl

/-- Claim C3, counterexample: an entry whose `model_name` is present but is
the empty string (reachable, e.g. from test path `tests/models/`) is counted
by "present model_name" but excluded from the by-model mapping, so the claimed
by-model sum invariant fails. -/
theorem c3_counterexample :
    ¬ (sumCounts
        (_aggregate_failures [⟨"j".data, "t".data, "e".data, some []⟩]).2
      = [(⟨"j".data, "t".data, "e".data, some []⟩ : FailureEntry)].countP
          fun e => e.model_name.isSome) := by
  decide

/-- Claim C3 as amended: for every list of `N` failure entries, the by-test
counts sum to `N`, and the by-model counts sum to the number of entries whose
`model_name` is present *and non-empty* (the script's truthiness test treats
an empty-string model name like an absent one). -/
theorem c3_count_invariant (es : List FailureEntry) :
    sumCounts (_aggregate_failures es).1 = es.length
    ∧ sumCounts (_aggregate_failures es).2 = es.countP hasModel := by
  obtain ⟨h1, h2⟩ := foldl_aggStep_sums es [] []
  unfold _aggregate_failures
  constructor
  · rw [sumCounts_finalize, h1]
    simp [sumCounts]
  · rw [sumCounts_finalize, h2]
    simp [sumCounts]

theorem foldl_aggStep_fst_nil (es : List FailureEntry) :
    ∀ a b : AggMap, (es.foldl aggStep (a, b)).1 = [] → es = [] ∧ a = [] := by
  induction es with
  | nil => intro a b h; exact ⟨rfl, h⟩
  | cons e rest ih =>
    intro a b h
    rw [List.foldl_cons] at h
    obtain ⟨-, h2⟩ := ih _ _ h
    exact absurd h2 (updAssoc_ne_nil _ _ _ _)

/-- Claim C10: on aggregator outputs, a non-empty by-model mapping forces a
non-empty by-test mapping, so the renderer's emptiness test on by-test alone
coincides with testing both mappings. -/
theorem c10_by_model_nonempty_by_test_nonempty (es : List FailureEntry) :
    ((_aggregate_failures es).2 ≠ [] → (_aggregate_failures es).1 ≠ [])
    ∧ ((_aggregate_failures es).1 = []
        ↔ (_aggregate_failures es).1 = [] ∧ (_aggregate_failures es).2 = []) := by
  have key : (_aggregate_failures es).2 ≠ [] → (_aggregate_failures es).1 ≠ [] := by
    intro h2 h1
    unfold _aggregate_failures at h1 h2
    rw [List.map_eq_nil_iff] at h1
    obtain ⟨he, -⟩ := foldl_aggStep_fst_nil es [] [] h1
    subst he
    simp at h2
  refine ⟨key, ?_, fun h => h.1⟩
  intro h1
  refine ⟨h1, ?_⟩
  by_contra h2
  exact key h2 h1

/-- Witness for claim C10 at a concrete input with a model-bearing entry. -/
theorem c10_witness :
    (_aggregate_failures [⟨"j".data, "t".data, "e".data, some "bart".data⟩]).2 ≠ []
    ∧ (_aggregate_failures [⟨"j".data, "t".data, "e".data, some "bart".data⟩]).1 ≠ [] :=
  ⟨by decide,
   (c10_by_model_nonempty_by_test_nonempty
     [⟨"j".data, "t".data, "e".data, some "bart".data⟩]).1 (by decide)⟩

/-! ### Claims C4 and C7: summary/detail correlation -/

theorem collectAux_spec (job : PyStr) (details : List PyStr) (lines : List PyStr) :
    ∀ idx : Nat,
      (collectAux job details lines idx).length
          = (lines.filter isRealFailureLine).length
      ∧ ∀ i, i < (lines.filter isRealFailureLine).length →
          ((collectAux job details lines idx).getD i default).error
            = if idx + i < details.length then details.getD (idx + i) []
              else shortErrorOf ((lines.filter isRealFailureLine).getD i []) := by
  induction lines with
  | nil =>
    intro idx
    refine ⟨rfl, ?_⟩
    intro i hi
    simp [List.filter_nil] at hi
  | cons line rest ih =>
    intro idx
    by_cases hl : isRealFailureLine line
    · constructor
      · simp only [collectAux, hl, if_true, List.filter_cons, List.length_cons,
          (ih (idx + 1)).1]
      · intro i hi
        cases i with
        | zero =>
          simp [collectAux, hl, List.filter_cons]
        | succ n =>
          have hn : n < (rest.filter isRealFailureLine).length := by
            rw [List.filter_cons, if_pos hl] at hi
            simpa using hi
          have h := (ih (idx + 1)).2 n hn
          have harith : idx + 1 + n = idx + (n + 1) := by omega
          rw [harith] at h
          simpa [collectAux, hl, List.filter_cons] using h
    · have hfilter : (line :: rest).filter isRealFailureLine
          = rest.filter isRealFailureLine := by
        rw [List.filter_cons, if_neg (by simp [hl])]
      have hcoll : collectAux job details (line :: rest) idx
          = collectAux job details rest idx := by
        simp [collectAux, hl]
      rw [hfilter, hcoll]
      exact ih idx

/-- Claim C4: in each node, the Nth real failure line of the summary (a
`FAILED ` line without `" - Failed: (subprocess)"`) receives the Nth filtered
failure-detail line as its error, and once the filtered detail sequence is
exhausted the error falls back to the text after the first `" - "` of the
summary line itself. -/
theorem c4_detail_correlation (job summary_text detail_text : PyStr) :
    (collectFailures job summary_text detail_text).length
        = ((pySplitlines summary_text).filter isRealFailureLine).length
    ∧ ∀ i, i < ((pySplitlines summary_text).filter isRealFailureLine).length →
        ((collectFailures job summary_text detail_text).getD i default).error
          = if i < (filterFailureLines detail_text).length
            then (filterFailureLines detail_text).getD i []
            else shortErrorOf
              (((pySplitlines summary_text).filter isRealFailureLine).getD i []) := by
  obtain ⟨h1, h2⟩ :=
    collectAux_spec job (filterFailureLines detail_text) (pySplitlines summary_text) 0
  refine ⟨h1, fun i hi => ?_⟩
  have h := h2 i hi
  simpa using h

/-- Witness for claim C4: two real failure lines and one detail line; the
first entry receives the detail line, the second falls back to its own short
error. -/
theorem c4_witness :
    ((collectFailures "job".data
        "FAILED a::b - short1\nFAILED c::d - short2".data "E1: boom".data).getD 0
          default).error = "E1: boom".data
    ∧ ((collectFailures "job".data
        "FAILED a::b - short1\nFAILED c::d - short2".data "E1: boom".data).getD 1
          default).error = "short2".data := by
  have h0 := (c4_detail_correlation "job".data
    "FAILED a::b - short1\nFAILED c::d - short2".data "E1: boom".data).2 0 (by decide)
  have h1 := (c4_detail_correlation "job".data
    "FAILED a::b - short1\nFAILED c::d - short2".data "E1: boom".data).2 1 (by decide)
  rw [if_pos (by decide)] at h0
  rw [if_neg (by decide)] at h1
  rw [h0, h1]
  exact ⟨by decide, by decide⟩

/-- Claim C7: a summary line starting with `FAILED ` that contains
`" - Failed: (subprocess)"` produces no failure entry and does not consume a
failure-detail line, wherever it occurs in a node's summary. -/
theorem c7_subprocess_excluded (job : PyStr) (details : List PyStr)
    (pre post : List PyStr) (idx : Nat) (line : PyStr)
    (h1 : pyStartsWith line "FAILED ".data = true)
    (h2 : pyContains line " - Failed: (subprocess)".data = true) :
    collectAux job details (pre ++ line :: post) idx
      = collectAux job details (pre ++ post) idx := by
  have hline : isRealFailureLine line = false := by
    unfold isRealFailureLine
    rw [h1, h2]
    rfl
  induction pre generalizing idx with
  | nil => simp [collectAux, hline]
  | cons p ps ih =>
    simp only [List.cons_append]
    unfold collectAux
    by_cases hp : isRealFailureLine p
    · rw [if_pos hp, if_pos hp]
      exact congrArg _ (ih _)
    · rw [if_neg hp, if_neg hp]
      exact ih _

/-- Witness for claim C7: inserting a subprocess line in front leaves the
collected entries unchanged. -/
theorem c7_witness :
    collectAux "j".data ["E: x".data]
        ([] ++ "FAILED a::b - Failed: (subprocess)".data :: ["FAILED c::d - e".data]) 0
      = collectAux "j".data ["E: x".data] ([] ++ ["FAILED c::d - e".data]) 0 :=
  c7_subprocess_excluded "j".data ["E: x".data] [] ["FAILED c::d - e".data] 0
    "FAILED a::b - Failed: (subprocess)".data (by decide) (by decide)

/-! ### Claim C9: the absent/empty model-name sentinel -/

theorem keysOf_updAssoc (u : β → β) (i : β) (k : PyStr) (m : List (PyStr × β)) :
    keysOf (updAssoc u i k m)
      = if k ∈ keysOf m then keysOf m else keysOf m ++ [k] := by
  induction m with
  | nil =>
    rw [show keysOf ([] : List (PyStr × β)) = [] from rfl, if_neg (List.not_mem_nil k)]
    rfl
  | cons p rest ih =>
    obtain ⟨k', v⟩ := p
    have hstep : updAssoc u i k ((k', v) :: rest)
        = if k' = k then (k', u v) :: rest else (k', v) :: updAssoc u i k rest := by
      simp only [updAssoc]
    by_cases h : k' = k
    · rw [hstep, if_pos h]
      have h2 : k ∈ keysOf ((k', v) :: rest) := by
        rw [show keysOf ((k', v) :: rest) = k' :: keysOf rest from rfl, h]
        exact List.mem_cons_self _ _
      rw [if_pos h2]
      rfl
    · rw [hstep, if_neg h,
        show keysOf ((k', v) :: updAssoc u i k rest)
          = k' :: keysOf (updAssoc u i k rest) from rfl,
        show keysOf ((k', v) :: rest) = k' :: keysOf rest from rfl, ih]
      by_cases h2 : k ∈ keysOf rest
      · rw [if_pos h2, if_pos (List.mem_cons_of_mem _ h2)]
      · rw [if_neg h2, if_neg ?_, List.cons_append]
        intro hmem
        rcases List.mem_cons.1 hmem with h3 | h3
        · exact h h3.symm
        · exact h2 h3

theorem foldl_aggStep_eq (es : List FailureEntry) :
    ∀ a b : AggMap,
      es.foldl aggStep (a, b)
        = ((testPairs es).foldl (fun m p => addFailure m p.1 p.2) a,
           (modelPairs es).foldl (fun m p => addFailure m p.1 p.2) b) := by
  induction es with
  | nil => intro a b; rfl
  | cons e rest ih =>
    intro a b
    rw [List.foldl_cons]
    have htp : testPairs (e :: rest)
        = (_normalize_test_name e.test_name, e.error) :: testPairs rest := rfl
    cases hm : e.model_name with
    | none =>
      have hmp : modelPairs (e :: rest) = modelPairs rest := by
        simp only [modelPairs, List.filterMap_cons, hm]
      have hstep : aggStep (a, b) e
          = (addFailure a (_normalize_test_name e.test_name) e.error, b) := by
        simp only [aggStep, hm]
      rw [hstep, ih, htp, hmp, List.foldl_cons]
    | some m =>
      by_cases hme : m = []
      · have hmp : modelPairs (e :: rest) = modelPairs rest := by
          simp only [modelPairs, List.filterMap_cons, hm, if_pos hme]
        have hstep : aggStep (a, b) e
            = (addFailure a (_normalize_test_name e.test_name) e.error, b) := by
          simp only [aggStep, hm, if_pos hme]
        rw [hstep, ih, htp, hmp, List.foldl_cons]
      · have hmp : modelPairs (e :: rest) = (m, e.error) :: modelPairs rest := by
          simp only [modelPairs, List.filterMap_cons, hm, if_neg hme]
        have hstep : aggStep (a, b) e
            = (addFailure a (_normalize_test_name e.test_name) e.error,
               addFailure b m e.error) := by
          simp only [aggStep, hm, if_neg hme]
        rw [hstep, ih, htp, hmp, List.foldl_cons, List.foldl_cons]

theorem keys_foldl_addFailure (ps : List (PyStr × PyStr)) :
    ∀ b : AggMap,
      keysOf (ps.foldl (fun m p => addFailure m p.1 p.2) b)
        = keysOf b ++ dedupSeen (ps.map Prod.fst) (keysOf b) := by
  induction ps with
  | nil =>
    intro b
    rw [List.foldl_nil, List.map_nil, show dedupSeen [] (keysOf b) = [] from rfl,
      List.append_nil]
  | cons p rest ih =>
    intro b
    rw [List.foldl_cons, ih, List.map_cons]
    have hkeys := keysOf_updAssoc
      (fun g => ⟨g.count + 1, counterAdd g.errors p.2⟩)
      (⟨1, [(p.2, 1)]⟩ : GroupInfo) p.1 b
    have hded : dedupSeen (p.1 :: List.map Prod.fst rest) (keysOf b)
        = if p.1 ∈ keysOf b then dedupSeen (List.map Prod.fst rest) (keysOf b)
          else p.1 :: dedupSeen (List.map Prod.fst rest) (keysOf b ++ [p.1]) := by
      simp only [dedupSeen]
    by_cases h : p.1 ∈ keysOf b
    · rw [show keysOf (addFailure b p.1 p.2) = keysOf b from by
        rw [show addFailure b p.1 p.2 = updAssoc _ _ p.1 b from rfl, hkeys, if_pos h]]
      rw [hded, if_pos h]
    · rw [show keysOf (addFailure b p.1 p.2) = keysOf b ++ [p.1] from by
        rw [show addFailure b p.1 p.2 = updAssoc _ _ p.1 b from rfl, hkeys, if_neg h]]
      rw [hded, if_neg h, List.append_assoc]
      rfl

theorem keysOf_finalize (m : AggMap) :
    keysOf (m.map fun kg => (kg.1, (⟨kg.2.count, mostCommon kg.2.errors⟩ : GroupInfo)))
      = keysOf m := by
  unfold keysOf
  rw [List.map_map]
  rfl

/-- Claim C9, counterexample: the extractor can return a present but *empty*
model name (`tests/models/` has an empty third segment), and the aggregator
then excludes that present entry from the by-model mapping. -/
theorem c9_counterexample :
    _extract_model_name "tests/models/".data = some []
    ∧ (_aggregate_failures [⟨"j".data, "tests/models/".data, "e".data, some []⟩]).2 = []
    ∧ (⟨"j".data, "tests/models/".data, "e".data, some []⟩ : FailureEntry).model_name.isSome
        = true := by
  refine ⟨by decide, by decide, by decide⟩

/-- Claim C9 as amended: the absent result is a distinct optional sentinel,
but the extractor can also return the empty string — it does so exactly when
the path before `::` starts with `tests/models/` and its third segment is
empty — and the by-model mapping's keys are exactly the first occurrences of
the truthy (present *and non-empty*) model names, so the aggregator excludes
precisely the entries whose model name is absent or empty. -/
theorem c9_model_sentinel :
    (∀ s : PyStr,
      _extract_model_name s = some []
        ↔ pyStartsWith ((splitDC s).headD []) "tests/models/".data = true
          ∧ 3 ≤ (splitCh '/' ((splitDC s).headD [])).length
          ∧ (splitCh '/' ((splitDC s).headD [])).getD 2 [] = [])
    ∧ ∀ es : List FailureEntry,
        keysOf (_aggregate_failures es).2
          = dedupSeen ((modelPairs es).map Prod.fst) [] := by
  constructor
  · intro s
    unfold _extract_model_name
    constructor
    · intro h
      by_cases h1 : pyStartsWith ((splitDC s).headD []) "tests/models/".data
      · by_cases h2 : (splitCh '/' ((splitDC s).headD [])).length ≥ 3
        · rw [if_pos h1, if_pos h2] at h
          exact ⟨h1, h2, Option.some_injective _ h⟩
        · rw [if_pos h1, if_neg h2] at h
          exact absurd h (by simp)
      · rw [if_neg h1] at h
        exact absurd h (by simp)
    · rintro ⟨h1, h2, h3⟩
      rw [if_pos h1, if_pos h2, h3]
  · intro es
    have h := foldl_aggStep_eq es [] []
    unfold _aggregate_failures
    rw [h]
    have hk := keys_foldl_addFailure (modelPairs es) []
    simpa [keysOf_finalize] using hk

/-! ### Claim C8: error tallies are ranked by count, ties in first-seen order -/

theorem lookupA_updAssoc_self (u : β → β) (i : β) (k : PyStr)
    (m : List (PyStr × β)) :
    lookupA k (updAssoc u i k m) = some ((lookupA k m).elim i u) := by
  induction m with
  | nil => simp [updAssoc, lookupA]
  | cons p rest ih =>
    obtain ⟨k', v⟩ := p
    by_cases h : k' = k
    · simp [updAssoc, lookupA, h]
    · simp [updAssoc, lookupA, h, ih]

theorem lookupA_updAssoc_ne (u : β → β) (i : β) (k k' : PyStr) (h : k' ≠ k)
    (m : List (PyStr × β)) :
    lookupA k' (updAssoc u i k m) = lookupA k' m := by
  induction m with
  | nil =>
    simp [updAssoc, lookupA, Ne.symm h]
  | cons p rest ih =>
    obtain ⟨k'', v⟩ := p
    by_cases h2 : k'' = k
    · have hupd : updAssoc u i k ((k'', v) :: rest) = (k'', u v) :: rest := by
        simp only [updAssoc, if_pos h2]
      have hcond : ¬ k'' = k' := fun hh => h (hh.symm.trans h2)
      rw [hupd]
      simp only [lookupA]
      rw [if_neg hcond, if_neg hcond]
    · simp [updAssoc, lookupA, h2, ih]

theorem lookupA_finalize (k : PyStr) (m : AggMap) :
    lookupA k (m.map fun kg => (kg.1, (⟨kg.2.count, mostCommon kg.2.errors⟩ : GroupInfo)))
      = (lookupA k m).map fun g => (⟨g.count, mostCommon g.errors⟩ : GroupInfo) := by
  induction m with
  | nil => rfl
  | cons p rest ih =>
    obtain ⟨k', v⟩ := p
    by_cases h : k' = k <;> simp [lookupA, h, ih]

theorem lookupA_buildMap (k : PyStr) (ps : List (PyStr × PyStr)) :
    lookupA k (buildMap ps) = groupOf (streamFor k ps) := by
  induction ps using List.reverseRecOn with
  | nil => simp [buildMap, streamFor, groupOf, lookupA]
  | append_singleton ps p ih =>
    have hbuild : buildMap (ps ++ [p]) = addFailure (buildMap ps) p.1 p.2 := by
      unfold buildMap
      rw [List.foldl_append]
      rfl
    have hstream : streamFor k (ps ++ [p])
        = streamFor k ps ++ (if p.1 = k then [p.2] else []) := by
      unfold streamFor
      rw [List.filterMap_append]
      congr 1
      by_cases hh : p.1 = k <;> simp [hh]
    rw [hbuild, hstream]
    by_cases h : p.1 = k
    · rw [if_pos h,
        show addFailure (buildMap ps) p.1 p.2
          = updAssoc (fun g => ⟨g.count + 1, counterAdd g.errors p.2⟩)
              ⟨1, [(p.2, 1)]⟩ p.1 (buildMap ps) from rfl, h,
        lookupA_updAssoc_self, ih]
      by_cases hS : streamFor k ps = []
      · rw [hS]
        simp [groupOf, pyTally, counterAdd, updAssoc]
      · simp only [groupOf, if_neg hS, Option.elim]
        have hne : ¬ (streamFor k ps ++ [p.2] = []) := by simp
        rw [if_neg hne]
        have htal : pyTally (streamFor k ps ++ [p.2])
            = counterAdd (pyTally (streamFor k ps)) p.2 := by
          unfold pyTally
          rw [List.foldl_append]
          rfl
        rw [htal]
        simp
    · rw [if_neg h, List.append_nil,
        show addFailure (buildMap ps) p.1 p.2
          = updAssoc (fun g => ⟨g.count + 1, counterAdd g.errors p.2⟩)
              ⟨1, [(p.2, 1)]⟩ p.1 (buildMap ps) from rfl,
        lookupA_updAssoc_ne _ _ _ _ (fun hh => h hh.symm), ih]

theorem lookupA_agg_fst (es : List FailureEntry) (k : PyStr) :
    lookupA k (_aggregate_failures es).1
      = (groupOf (streamFor k (testPairs es))).map
          fun g => (⟨g.count, mostCommon g.errors⟩ : GroupInfo) := by
  unfold _aggregate_failures
  rw [foldl_aggStep_eq es [] [],
    show (testPairs es).foldl (fun m p => addFailure m p.1 p.2) []
      = buildMap (testPairs es) from rfl]
  rw [lookupA_finalize, lookupA_buildMap]

theorem lookupA_agg_snd (es : List FailureEntry) (k : PyStr) :
    lookupA k (_aggregate_failures es).2
      = (groupOf (streamFor k (modelPairs es))).map
          fun g => (⟨g.count, mostCommon g.errors⟩ : GroupInfo) := by
  unfold _aggregate_failures
  rw [foldl_aggStep_eq es [] [],
    show (modelPairs es).foldl (fun m p => addFailure m p.1 p.2) []
      = buildMap (modelPairs es) from rfl]
  rw [lookupA_finalize, lookupA_buildMap]

theorem mem_insertByCount (x z : PyStr × Nat) (l : List (PyStr × Nat)) :
    z ∈ insertByCount x l → z = x ∨ z ∈ l := by
  induction l with
  | nil =>
    intro h
    simp only [insertByCount, List.mem_singleton] at h
    exact Or.inl h
  | cons y ys ih =>
    intro h
    simp only [insertByCount] at h
    by_cases hc : y.2 > x.2
    · rw [if_pos hc] at h
      rcases List.mem_cons.1 h with h1 | h1
      · exact Or.inr (h1 ▸ List.mem_cons_self _ _)
      · rcases ih h1 with h2 | h2
        · exact Or.inl h2
        · exact Or.inr (List.mem_cons_of_mem _ h2)
    · rw [if_neg hc] at h
      rcases List.mem_cons.1 h with h1 | h1
      · exact Or.inl h1
      · exact Or.inr h1

theorem mem_mostCommon (z : PyStr × Nat) (l : List (PyStr × Nat)) :
    z ∈ mostCommon l → z ∈ l := by
  induction l with
  | nil => intro h; exact absurd h (List.not_mem_nil z)
  | cons x xs ih =>
    intro h
    rw [show mostCommon (x :: xs) = insertByCount x (mostCommon xs) from rfl] at h
    rcases mem_insertByCount x z (mostCommon xs) h with h1 | h1
    · exact h1 ▸ List.mem_cons_self _ _
    · exact List.mem_cons_of_mem _ (ih h1)

theorem pairwise_insertByCount (f : (PyStr × Nat) → Nat) (x : PyStr × Nat)
    (l : List (PyStr × Nat))
    (hl : l.Pairwise fun a b => b.2 < a.2 ∨ (a.2 = b.2 ∧ f a < f b))
    (hx : ∀ y ∈ l, y.2 = x.2 → f x < f y) :
    (insertByCount x l).Pairwise fun a b => b.2 < a.2 ∨ (a.2 = b.2 ∧ f a < f b) := by
  induction l with
  | nil => simp [insertByCount]
  | cons y ys ih =>
    rw [List.pairwise_cons] at hl
    obtain ⟨hy, hys⟩ := hl
    simp only [insertByCount]
    by_cases hc : y.2 > x.2
    · rw [if_pos hc, List.pairwise_cons]
      constructor
      · intro z hz
        rcases mem_insertByCount x z ys hz with h1 | h1
        · rw [h1]
          exact Or.inl hc
        · exact hy z h1
      · exact ih hys fun y' hy' => hx y' (List.mem_cons_of_mem _ hy')
    · rw [if_neg hc, List.pairwise_cons]
      push_neg at hc
      constructor
      · intro z hz
        rcases List.mem_cons.1 hz with h1 | h1
        · rw [h1]
          rcases Nat.lt_or_ge y.2 x.2 with h2 | h2
          · exact Or.inl h2
          · have he : y.2 = x.2 := Nat.le_antisymm hc h2
            exact Or.inr ⟨he.symm, hx y (List.mem_cons_self _ _) he⟩
        · have hz2 : z.2 ≤ y.2 := by
            rcases hy z h1 with h2 | h2
            · omega
            · omega
          rcases Nat.lt_or_ge z.2 x.2 with h2 | h2
          · exact Or.inl h2
          · have he : z.2 = x.2 := Nat.le_antisymm (le_trans hz2 hc) h2
            exact Or.inr ⟨he.symm, hx z (List.mem_cons_of_mem _ h1) he⟩
      · rw [List.pairwise_cons]
        exact ⟨hy, hys⟩

theorem pairwise_mostCommon (f : (PyStr × Nat) → Nat) (l : List (PyStr × Nat))
    (hl : l.Pairwise fun a b => f a < f b) :
    (mostCommon l).Pairwise fun a b => b.2 < a.2 ∨ (a.2 = b.2 ∧ f a < f b) := by
  induction l with
  | nil => simp [mostCommon]
  | cons x xs ih =>
    rw [List.pairwise_cons] at hl
    obtain ⟨hx, hxs⟩ := hl
    rw [show mostCommon (x :: xs) = insertByCount x (mostCommon xs) from rfl]
    exact pairwise_insertByCount f x (mostCommon xs) (ih hxs)
      fun y hy _ => hx y (mem_mostCommon y xs hy)

theorem dedupSeen_not_mem (x : PyStr) (l : List PyStr) :
    ∀ seen, x ∈ dedupSeen l seen → x ∉ seen := by
  induction l with
  | nil =>
    intro seen h
    exact absurd h (List.not_mem_nil x)
  | cons k ks ih =>
    intro seen h
    simp only [dedupSeen] at h
    by_cases hk : k ∈ seen
    · rw [if_pos hk] at h
      exact ih seen h
    · rw [if_neg hk] at h
      rcases List.mem_cons.1 h with h1 | h1
      · rw [h1]
        exact hk
      · intro hx
        exact absurd (List.mem_append_left _ hx) (ih _ h1)

theorem firstOcc_cons (x : PyStr) (xs : List PyStr) (m : PyStr) :
    firstOcc (x :: xs) m = if x = m then 0 else firstOcc xs m + 1 := rfl

theorem dedupSeen_pairwise (l : List PyStr) :
    ∀ seen, (dedupSeen l seen).Pairwise
      fun a b => firstOcc l a < firstOcc l b := by
  induction l with
  | nil => intro seen; exact List.Pairwise.nil
  | cons e es ih =>
    intro seen
    simp only [dedupSeen]
    by_cases he : e ∈ seen
    · rw [if_pos he]
      refine List.Pairwise.imp_of_mem ?_ (ih seen)
      intro a b ha hb hab
      have ha' : ¬ e = a := fun h => (dedupSeen_not_mem a es seen ha) (h ▸ he)
      have hb' : ¬ e = b := fun h => (dedupSeen_not_mem b es seen hb) (h ▸ he)
      rw [firstOcc_cons, firstOcc_cons, if_neg ha', if_neg hb']
      omega
    · rw [if_neg he, List.pairwise_cons]
      constructor
      · intro b hb
        have hb' : ¬ e = b := by
          intro h
          exact (dedupSeen_not_mem b es _ hb)
            (List.mem_append_right _ (by rw [h]; exact List.mem_singleton_self b))
        rw [firstOcc_cons, firstOcc_cons, if_pos rfl, if_neg hb']
        omega
      · refine List.Pairwise.imp_of_mem ?_ (ih (seen ++ [e]))
        intro a b ha hb hab
        have ha' : ¬ e = a := fun h => (dedupSeen_not_mem a es _ ha)
          (List.mem_append_right _ (by rw [h]; exact List.mem_singleton_self a))
        have hb' : ¬ e = b := fun h => (dedupSeen_not_mem b es _ hb)
          (List.mem_append_right _ (by rw [h]; exact List.mem_singleton_self b))
        rw [firstOcc_cons, firstOcc_cons, if_neg ha', if_neg hb']
        omega

theorem keys_foldl_counterAdd (errs : List PyStr) :
    ∀ t : List (PyStr × Nat),
      keysOf (errs.foldl counterAdd t) = keysOf t ++ dedupSeen errs (keysOf t) := by
  induction errs with
  | nil =>
    intro t
    rw [List.foldl_nil, show dedupSeen [] (keysOf t) = [] from rfl, List.append_nil]
  | cons e es ih =>
    intro t
    rw [List.foldl_cons, ih]
    have hkeys := keysOf_updAssoc (· + 1) 1 e t
    have hded : dedupSeen (e :: es) (keysOf t)
        = if e ∈ keysOf t then dedupSeen es (keysOf t)
          else e :: dedupSeen es (keysOf t ++ [e]) := by
      simp only [dedupSeen]
    by_cases h : e ∈ keysOf t
    · rw [show keysOf (counterAdd t e) = keysOf t from by
        rw [show counterAdd t e = updAssoc (· + 1) 1 e t from rfl, hkeys, if_pos h],
        hded, if_pos h]
    · rw [show keysOf (counterAdd t e) = keysOf t ++ [e] from by
        rw [show counterAdd t e = updAssoc (· + 1) 1 e t from rfl, hkeys, if_neg h],
        hded, if_neg h, List.append_assoc]
      rfl

theorem pyTally_pairwise (S : List PyStr) :
    (pyTally S).Pairwise fun a b => firstOcc S a.1 < firstOcc S b.1 := by
  have hkeys : keysOf (pyTally S) = dedupSeen S [] := by
    have h := keys_foldl_counterAdd S []
    rw [show keysOf ([] : List (PyStr × Nat)) = [] from rfl] at h
    rw [show pyTally S = S.foldl counterAdd [] from rfl, h, List.nil_append]
  have hp : (keysOf (pyTally S)).Pairwise fun a b => firstOcc S a < firstOcc S b := by
    rw [hkeys]
    exact dedupSeen_pairwise S []
  unfold keysOf at hp
  exact List.Pairwise.of_map Prod.fst (fun a b hab => hab) hp

/-- Claim C8: in every aggregated group (by-test or by-model), the errors
mapping is ordered by descending occurrence count, and two tied messages
appear in the order of their first occurrences in the group's error stream. -/
theorem c8_errors_ranked (es : List FailureEntry) (k : PyStr) (g : GroupInfo) :
    (lookupA k (_aggregate_failures es).1 = some g →
      g.errors.Pairwise fun a b =>
        b.2 < a.2 ∨ (a.2 = b.2
          ∧ firstOcc (streamFor k (testPairs es)) a.1
              < firstOcc (streamFor k (testPairs es)) b.1))
    ∧ (lookupA k (_aggregate_failures es).2 = some g →
      g.errors.Pairwise fun a b =>
        b.2 < a.2 ∨ (a.2 = b.2
          ∧ firstOcc (streamFor k (modelPairs es)) a.1
              < firstOcc (streamFor k (modelPairs es)) b.1)) := by
  constructor
  · intro h
    rw [lookupA_agg_fst] at h
    by_cases hemp : streamFor k (testPairs es) = []
    · rw [hemp] at h
      exact absurd h (by simp [groupOf])
    · rw [groupOf, if_neg hemp, Option.map_some'] at h
      have hg := (Option.some.inj h).symm
      rw [hg]
      exact pairwise_mostCommon (fun p => firstOcc (streamFor k (testPairs es)) p.1)
        (pyTally (streamFor k (testPairs es)))
        (pyTally_pairwise (streamFor k (testPairs es)))
  · intro h
    rw [lookupA_agg_snd] at h
    by_cases hemp : streamFor k (modelPairs es) = []
    · rw [hemp] at h
      exact absurd h (by simp [groupOf])
    · rw [groupOf, if_neg hemp, Option.map_some'] at h
      have hg := (Option.some.inj h).symm
      rw [hg]
      exact pairwise_mostCommon (fun p => firstOcc (streamFor k (modelPairs es)) p.1)
        (pyTally (streamFor k (modelPairs es)))
        (pyTally_pairwise (streamFor k (modelPairs es)))

/-- Witness for claim C8: three same-test entries with errors a, b, b; the
group's tally is ranked b (2) before a (1). -/
theorem c8_witness :
    lookupA "t::x".data
        (_aggregate_failures
          [⟨"j".data, "t::x".data, "a".data, none⟩,
           ⟨"j".data, "t::x".data, "b".data, none⟩,
           ⟨"j".data, "t::x".data, "b".data, none⟩]).1
      = some ⟨3, [("b".data, 2), ("a".data, 1)]⟩
    ∧ ([("b".data, 2), ("a".data, 1)] : List (PyStr × Nat)).Pairwise
        (fun a b =>
          b.2 < a.2 ∨ (a.2 = b.2
            ∧ firstOcc (streamFor "t::x".data (testPairs
                [⟨"j".data, "t::x".data, "a".data, none⟩,
                 ⟨"j".data, "t::x".data, "b".data, none⟩,
                 ⟨"j".data, "t::x".data, "b".data, none⟩])) a.1
              < firstOcc (streamFor "t::x".data (testPairs
                [⟨"j".data, "t::x".data, "a".data, none⟩,
                 ⟨"j".data, "t::x".data, "b".data, none⟩,
                 ⟨"j".data, "t::x".data, "b".data, none⟩])) b.1)) :=
  ⟨by decide,
   (c8_errors_ranked
      [⟨"j".data, "t::x".data, "a".data, none⟩,
       ⟨"j".data, "t::x".data, "b".data, none⟩,
       ⟨"j".data, "t::x".data, "b".data, none⟩]
      "t::x".data ⟨3, [("b".data, 2), ("a".data, 1)]⟩).1 (by decide)⟩

/-- Witness for claim C9 at a concrete input: one truthy and one empty model
name; only the truthy one becomes a by-model key. -/
theorem c9_witness :
    keysOf (_aggregate_failures
        [⟨"j".data, "t".data, "e".data, some "bart".data⟩,
         ⟨"j".data, "tests/models/".data, "e".data, some []⟩]).2
      = ["bart".data]
    ∧ (_extract_model_name "tests/models/x.py::t".data = some []
        ↔ pyStartsWith ((splitDC "tests/models/x.py::t".data).headD [])
              "tests/models/".data = true
          ∧ 3 ≤ (splitCh '/' ((splitDC "tests/models/x.py::t".data).headD [])).length
          ∧ (splitCh '/' ((splitDC "tests/models/x.py::t".data).headD [])).getD 2 []
              = []) := by
  constructor
  · rw [(c9_model_sentinel).2
      [⟨"j".data, "t".data, "e".data, some "bart".data⟩,
       ⟨"j".data, "tests/models/".data, "e".data, some []⟩]]
    decide
  · exact (c9_model_sentinel).1 "tests/models/x.py::t".data

/-! ### Claim C5: normalizer idempotence -/

/-- Claim C5, counterexample: the regex `$` anchor also matches just before a
final newline, so on `"x_12\n_34y"` one application strips `"_34y"` while the
second application strips `"_12"` as well — normalization is not idempotent
on strings containing newlines. -/
theorem c5_counterexample :
    _normalize_test_name (_normalize_test_name "x_12\n_34y".data)
      ≠ _normalize_test_name "x_12\n_34y".data := by decide

theorem splitDC_ne_nil (s : PyStr) : splitDC s ≠ [] := by
  induction s using splitDC.induct with
  | case1 => simp [splitDC]
  | case2 c => simp [splitDC]
  | case3 c d cs hcd ih => simp [splitDC, hcd]
  | case4 c d cs hcd hnil ih => simp [splitDC, hcd, hnil]
  | case5 c d cs hcd p ps hcons ih => simp [splitDC, hcd, hcons]

theorem splitDC_mem_chars (s : PyStr) (p : PyStr) (hp : p ∈ splitDC s) :
    ∀ c ∈ p, c ∈ s := by
  induction s using splitDC.induct generalizing p with
  | case1 =>
    simp only [splitDC, List.mem_singleton] at hp
    intro c hc
    rw [hp] at hc
    exact absurd hc (List.not_mem_nil c)
  | case2 c' =>
    simp only [splitDC, List.mem_singleton] at hp
    intro c hc
    rw [hp] at hc
    exact hc
  | case3 c' d cs hcd ih =>
    rw [show splitDC (c' :: d :: cs) = [] :: splitDC cs from by
      simp [splitDC, hcd]] at hp
    intro c hc
    rcases List.mem_cons.1 hp with h1 | h1
    · rw [h1] at hc
      exact absurd hc (List.not_mem_nil c)
    · exact List.mem_cons_of_mem _ (List.mem_cons_of_mem _ (ih p h1 c hc))
  | case4 c' d cs hcd hnil ih =>
    rw [show splitDC (c' :: d :: cs) = [[c']] from by simp [splitDC, hcd, hnil]] at hp
    rw [List.mem_singleton.1 hp]
    intro c hc
    rw [List.mem_singleton.1 hc]
    exact List.mem_cons_self _ _
  | case5 c' d cs hcd q qs hcons ih =>
    rw [show splitDC (c' :: d :: cs) = (c' :: q) :: qs from by
      simp [splitDC, hcd, hcons]] at hp
    intro c hc
    rcases List.mem_cons.1 hp with h1 | h1
    · rw [h1] at hc
      rcases List.mem_cons.1 hc with h2 | h2
      · rw [h2]
        exact List.mem_cons_self _ _
      · have hq : q ∈ splitDC (d :: cs) := by
          rw [hcons]
          exact List.mem_cons_self _ _
        exact List.mem_cons_of_mem _ (ih q hq c h2)
    · have hq : p ∈ splitDC (d :: cs) := by
        rw [hcons]
        exact List.mem_cons_of_mem _ h1
      exact List.mem_cons_of_mem _ (ih p hq c hc)

theorem splitDC_head_chars (u : PyStr) (e : Char) (p' : PyStr) (ps : List PyStr)
    (h : splitDC u = (e :: p') :: ps) : ∃ t, u = e :: t := by
  induction u using splitDC.induct with
  | case1 =>
    rw [show splitDC [] = [[]] from rfl] at h
    exact absurd (List.cons.injEq .. ▸ h).1 (by simp)
  | case2 c =>
    rw [show splitDC [c] = [[c]] from rfl] at h
    obtain ⟨h1, -⟩ := List.cons.injEq .. ▸ h
    obtain ⟨h2, -⟩ := List.cons.injEq .. ▸ h1.symm
    exact ⟨[], by rw [h2]⟩
  | case3 c d cs hcd ih =>
    rw [show splitDC (c :: d :: cs) = [] :: splitDC cs from by simp [splitDC, hcd]] at h
    obtain ⟨h1, -⟩ := List.cons.injEq .. ▸ h
    exact absurd h1.symm (List.cons_ne_nil _ _)
  | case4 c d cs hcd hnil ih =>
    rw [show splitDC (c :: d :: cs) = [[c]] from by simp [splitDC, hcd, hnil]] at h
    obtain ⟨h1, -⟩ := List.cons.injEq .. ▸ h
    obtain ⟨h2, -⟩ := List.cons.injEq .. ▸ h1
    exact ⟨d :: cs, by rw [h2]⟩
  | case5 c d cs hcd q qs hcons ih =>
    rw [show splitDC (c :: d :: cs) = (c :: q) :: qs from by
      simp [splitDC, hcd, hcons]] at h
    obtain ⟨h1, -⟩ := List.cons.injEq .. ▸ h
    obtain ⟨h2, -⟩ := List.cons.injEq .. ▸ h1
    exact ⟨d :: cs, by rw [h2]⟩

theorem splitDC_hasDC (s : PyStr) (p : PyStr) (hp : p ∈ splitDC s) :
    hasDC p = false := by
  induction s using splitDC.induct generalizing p with
  | case1 =>
    rw [List.mem_singleton.1 hp]
    rfl
  | case2 c =>
    rw [List.mem_singleton.1 hp]
    rfl
  | case3 c d cs hcd ih =>
    rw [show splitDC (c :: d :: cs) = [] :: splitDC cs from by simp [splitDC, hcd]] at hp
    rcases List.mem_cons.1 hp with h1 | h1
    · rw [h1]
      rfl
    · exact ih p h1
  | case4 c d cs hcd hnil ih =>
    rw [show splitDC (c :: d :: cs) = [[c]] from by simp [splitDC, hcd, hnil]] at hp
    rw [List.mem_singleton.1 hp]
    rfl
  | case5 c d cs hcd q qs hcons ih =>
    rw [show splitDC (c :: d :: cs) = (c :: q) :: qs from by
      simp [splitDC, hcd, hcons]] at hp
    rcases List.mem_cons.1 hp with h1 | h1
    · rw [h1]
      cases q with
      | nil => rfl
      | cons e q' =>
        have hq : hasDC (e :: q') = false := ih (e :: q') (by
          rw [hcons]
          exact List.mem_cons_self _ _)
        obtain ⟨t, ht⟩ := splitDC_head_chars (d :: cs) e q' qs hcons
        have hd : d = e := (List.cons.injEq .. ▸ ht).1
        rw [show hasDC (c :: e :: q') = ((c = ':' && e = ':') || hasDC (e :: q'))
          from rfl, hq]
        have : (c = ':' && e = ':') = false := by
          rw [← hd]
          by_cases h1 : c = ':'
          · by_cases h2 : d = ':'
            · exact absurd ⟨h1, h2⟩ hcd
            · simp [h2]
          · simp [h1]
        rw [this]
        rfl
    · exact ih p (by
        rw [hcons]
        exact List.mem_cons_of_mem _ h1)

theorem splitDC_nil_head (u : PyStr) (ps : List PyStr)
    (h : splitDC u = [] :: ps) (hps : ps ≠ []) :
    ∃ t, u = ':' :: ':' :: t := by
  induction u using splitDC.induct with
  | case1 =>
    rw [show splitDC [] = [[]] from rfl] at h
    obtain ⟨-, h1⟩ := List.cons.injEq .. ▸ h
    exact absurd h1.symm hps
  | case2 c =>
    rw [show splitDC [c] = [[c]] from rfl] at h
    obtain ⟨h1, -⟩ := List.cons.injEq .. ▸ h
    exact absurd h1 (List.cons_ne_nil _ _)
  | case3 c d cs hcd ih =>
    exact ⟨cs, by rw [hcd.1, hcd.2]⟩
  | case4 c d cs hcd hnil ih =>
    rw [show splitDC (c :: d :: cs) = [[c]] from by simp [splitDC, hcd, hnil]] at h
    obtain ⟨h1, -⟩ := List.cons.injEq .. ▸ h
    exact absurd h1 (List.cons_ne_nil _ _)
  | case5 c d cs hcd q qs hcons ih =>
    rw [show splitDC (c :: d :: cs) = (c :: q) :: qs from by
      simp [splitDC, hcd, hcons]] at h
    obtain ⟨h1, -⟩ := List.cons.injEq .. ▸ h
    exact absurd h1 (List.cons_ne_nil _ _)

theorem splitDC_dropLast_getLast (s : PyStr) (p : PyStr)
    (hp : p ∈ (splitDC s).dropLast) : p.getLast? ≠ some ':' := by
  induction s using splitDC.induct generalizing p with
  | case1 =>
    rw [show ((splitDC []).dropLast : List PyStr) = [] from rfl] at hp
    exact absurd hp (List.not_mem_nil p)
  | case2 c =>
    rw [show ((splitDC [c]).dropLast : List PyStr) = [] from rfl] at hp
    exact absurd hp (List.not_mem_nil p)
  | case3 c d cs hcd ih =>
    rw [show splitDC (c :: d :: cs) = [] :: splitDC cs from by simp [splitDC, hcd]] at hp
    rcases List.eq_nil_or_concat (splitDC cs) with hnil | ⟨l2, b, hconc⟩
    · exact absurd hnil (splitDC_ne_nil cs)
    · rw [List.concat_eq_append] at hconc
      have hdrop : ([] :: (l2 ++ [b])).dropLast = [] :: l2 := by
        rw [show (([] : PyStr) :: (l2 ++ [b])) = (([] : PyStr) :: l2) ++ [b] from by simp]
        exact List.dropLast_concat ..
      rw [hconc, hdrop] at hp
      rcases List.mem_cons.1 hp with h1 | h1
      · rw [h1]
        simp
      · refine ih p ?_
        rw [hconc, show (l2 ++ [b]).dropLast = l2 from by simp]
        exact h1
  | case4 c d cs hcd hnil ih =>
    rw [show splitDC (c :: d :: cs) = [[c]] from by simp [splitDC, hcd, hnil],
      show ([[c]] : List PyStr).dropLast = [] from rfl] at hp
    exact absurd hp (List.not_mem_nil p)
  | case5 c d cs hcd q qs hcons ih =>
    rw [show splitDC (c :: d :: cs) = (c :: q) :: qs from by
      simp [splitDC, hcd, hcons]] at hp
    cases hqs : qs with
    | nil =>
      rw [hqs, show ([c :: q] : List PyStr).dropLast = [] from rfl] at hp
      exact absurd hp (List.not_mem_nil p)
    | cons q2 qs' =>
      rw [hqs, show ((c :: q) :: q2 :: qs').dropLast
          = (c :: q) :: (q2 :: qs').dropLast from rfl] at hp
      rcases List.mem_cons.1 hp with h1 | h1
      · rw [h1]
        cases hq : q with
        | nil =>
          -- the head segment of d :: cs is empty, so d :: cs starts with "::"
          have hx : splitDC (d :: cs) = [] :: q2 :: qs' := by
            rw [hcons, hq, hqs]
          obtain ⟨t, ht⟩ := splitDC_nil_head (d :: cs) (q2 :: qs') hx
            (List.cons_ne_nil _ _)
          have hd : d = ':' := (List.cons.injEq .. ▸ ht).1
          have hc : ¬ c = ':' := fun hcc => hcd ⟨hcc, hd⟩
          intro hcc
          exact hc (by simpa using hcc)
        | cons e q' =>
          have hqmem : q ∈ (splitDC (d :: cs)).dropLast := by
            rw [hcons, hqs]
            show q ∈ q :: (q2 :: qs').dropLast
            exact List.mem_cons_self _ _
          have hlast := ih q hqmem
          rw [hq] at hlast
          rw [show (c :: e :: q').getLast? = (e :: q').getLast? from rfl]
          exact hlast
      · exact ih p (by
          rw [hcons, hqs, show ((q :: q2 :: qs').dropLast)
            = q :: (q2 :: qs').dropLast from rfl]
          exact List.mem_cons_of_mem _ h1)

theorem hasDC_cons_cons (c d : Char) (cs : PyStr) :
    hasDC (c :: d :: cs) = ((c = ':' && d = ':') || hasDC (d :: cs)) := rfl

theorem splitDC_cons_no (c d : Char) (cs : PyStr) (h : ¬(c = ':' ∧ d = ':'))
    (q : PyStr) (qs : List PyStr) (hq : splitDC (d :: cs) = q :: qs) :
    splitDC (c :: d :: cs) = (c :: q) :: qs := by
  simp [splitDC, h, hq]

theorem splitDC_single (p : PyStr) (h : hasDC p = false) : splitDC p = [p] := by
  induction p using splitDC.induct with
  | case1 => rfl
  | case2 c => rfl
  | case3 c d cs hcd ih =>
    rw [hasDC_cons_cons, hcd.1, hcd.2] at h
    simp at h
  | case4 c d cs hcd hnil ih =>
    rw [hasDC_cons_cons] at h
    rcases Bool.or_eq_false_iff.1 h with ⟨-, h2⟩
    have h3 := ih h2
    rw [hnil] at h3
    exact absurd h3.symm (List.cons_ne_nil _ _)
  | case5 c d cs hcd q qs hcons ih =>
    rw [hasDC_cons_cons] at h
    rcases Bool.or_eq_false_iff.1 h with ⟨-, h2⟩
    have h3 := ih h2
    rw [hcons] at h3
    obtain ⟨hq, hqs⟩ := List.cons.injEq .. ▸ h3
    rw [splitDC_cons_no c d cs hcd q qs hcons, hq, hqs]

theorem splitDC_append_dc (p t : PyStr) :
    hasDC p = false → p.getLast? ≠ some ':' →
    splitDC (p ++ ':' :: ':' :: t) = p :: splitDC t := by
  induction p with
  | nil =>
    intro _ _
    simp [splitDC]
  | cons c p' ih =>
    intro hdc hlast
    cases p' with
    | nil =>
      have hc : ¬ c = ':' := by
        intro hcc
        exact hlast (by rw [hcc]; rfl)
      have h2 : splitDC (':' :: ':' :: t) = [] :: splitDC t := by simp [splitDC]
      have h3 := splitDC_cons_no c ':' (':' :: t) (fun hh => hc hh.1) [] (splitDC t) h2
      exact h3
    | cons e p'' =>
      have hcd2 : ¬(c = ':' ∧ e = ':') := by
        rintro ⟨h1, h2⟩
        rw [hasDC_cons_cons, h1, h2] at hdc
        simp at hdc
      have hdc' : hasDC (e :: p'') = false := by
        rw [hasDC_cons_cons] at hdc
        exact (Bool.or_eq_false_iff.1 hdc).2
      have hlast' : (e :: p'').getLast? ≠ some ':' := by
        rw [show (c :: e :: p'').getLast? = (e :: p'').getLast? from rfl] at hlast
        exact hlast
      have ihh := ih hdc' hlast'
      rw [show ((e :: p'') ++ ':' :: ':' :: t) = e :: (p'' ++ ':' :: ':' :: t) from rfl] at ihh
      have h3 := splitDC_cons_no c e (p'' ++ ':' :: ':' :: t) hcd2
        (e :: p'') (splitDC t) ihh
      rw [show ((c :: e :: p'') ++ ':' :: ':' :: t)
        = c :: e :: (p'' ++ ':' :: ':' :: t) from rfl]
      exact h3

theorem splitDC_joinDC (parts : List PyStr) :
    parts ≠ [] → (∀ p ∈ parts, hasDC p = false) →
    (∀ p ∈ parts.dropLast, p.getLast? ≠ some ':') →
    splitDC (joinDC parts) = parts := by
  induction parts with
  | nil =>
    intro hne _ _
    exact absurd rfl hne
  | cons p ps ih =>
    intro _ hdc hlast
    cases ps with
    | nil =>
      rw [show joinDC [p] = p from rfl]
      exact splitDC_single p (hdc p (List.mem_singleton_self p))
    | cons q ps' =>
      rw [show joinDC (p :: q :: ps') = p ++ ':' :: ':' :: joinDC (q :: ps') from rfl]
      rw [splitDC_append_dc p _ (hdc p (List.mem_cons_self _ _))
        (hlast p (by
          rw [show ((p :: q :: ps').dropLast) = p :: (q :: ps').dropLast from rfl]
          exact List.mem_cons_self _ _))]
      rw [ih (List.cons_ne_nil _ _)
        (fun r hr => hdc r (List.mem_cons_of_mem _ hr))
        (fun r hr => hlast r (by
          rw [show ((p :: q :: ps').dropLast) = p :: (q :: ps').dropLast from rfl]
          exact List.mem_cons_of_mem _ hr))]

theorem joinDC_mem (ps : List PyStr) :
    ∀ c, c ∈ joinDC ps → (∃ p ∈ ps, c ∈ p) ∨ c = ':' := by
  induction ps using joinDC.induct with
  | case1 =>
    intro c hc
    exact absurd hc (List.not_mem_nil c)
  | case2 p =>
    intro c hc
    exact Or.inl ⟨p, List.mem_singleton_self p, hc⟩
  | case3 p q ps ih =>
    intro c hc
    rw [show joinDC (p :: q :: ps) = p ++ ':' :: ':' :: joinDC (q :: ps) from rfl] at hc
    rcases List.mem_append.1 hc with h1 | h1
    · exact Or.inl ⟨p, List.mem_cons_self _ _, h1⟩
    · rcases List.mem_cons.1 h1 with h2 | h2
      · exact Or.inr h2
      · rcases List.mem_cons.1 h2 with h3 | h3
        · exact Or.inr h3
        · rcases ih c h3 with ⟨r, hr, hcr⟩ | h4
          · exact Or.inl ⟨r, List.mem_cons_of_mem _ hr, hcr⟩
          · exact Or.inr h4

theorem subNumSuffix_shape (u : PyStr) :
    subNumSuffix u = [] ∨ subNumSuffix u = ['\n']
      ∨ ∃ c t, u = c :: t ∧ subNumSuffix u = c :: subNumSuffix t
          ∧ numSuffixMatch u = false := by
  cases u with
  | nil => exact Or.inl rfl
  | cons c cs =>
    by_cases hm : numSuffixMatch (c :: cs)
    · by_cases hl : (c :: cs).getLast? = some '\n'
      · exact Or.inr (Or.inl (by simp [subNumSuffix, hm, hl]))
      · exact Or.inl (by simp [subNumSuffix, hm, hl])
    · exact Or.inr (Or.inr ⟨c, cs, rfl, by simp [subNumSuffix, hm],
        Bool.not_eq_true _ ▸ hm⟩)

theorem subNumSuffix_prefix (u : PyStr) (h : '\n' ∉ u) :
    subNumSuffix u <+: u := by
  induction u with
  | nil => exact List.prefix_refl []
  | cons c cs ih =>
    by_cases hm : numSuffixMatch (c :: cs)
    · have hl : ¬ (c :: cs).getLast? = some '\n' :=
        fun hl => h (List.mem_of_getLast?_eq_some hl)
      rw [show subNumSuffix (c :: cs) = [] from by simp [subNumSuffix, hm, hl]]
      exact List.nil_prefix
    · rw [show subNumSuffix (c :: cs) = c :: subNumSuffix cs from by
        simp [subNumSuffix, hm]]
      have hcs : '\n' ∉ cs := fun hh => h (List.mem_cons_of_mem _ hh)
      obtain ⟨t, ht⟩ := ih hcs
      exact ⟨t, by
        rw [show ((c :: subNumSuffix cs) ++ t) = c :: (subNumSuffix cs ++ t) from rfl, ht]⟩

theorem hasDC_subNumSuffix (u : PyStr) (h : hasDC u = false) :
    hasDC (subNumSuffix u) = false := by
  induction u with
  | nil => exact h
  | cons c cs ih =>
    by_cases hm : numSuffixMatch (c :: cs)
    · by_cases hl : (c :: cs).getLast? = some '\n'
      · rw [show subNumSuffix (c :: cs) = ['\n'] from by simp [subNumSuffix, hm, hl]]
        rfl
      · rw [show subNumSuffix (c :: cs) = [] from by simp [subNumSuffix, hm, hl]]
        rfl
    · rw [show subNumSuffix (c :: cs) = c :: subNumSuffix cs from by
        simp [subNumSuffix, hm]]
      rcases subNumSuffix_shape cs with h1 | h1 | ⟨e, t, het, h1, -⟩
      · rw [h1]
        rfl
      · rw [h1, hasDC_cons_cons]
        have hne : ¬ (('\n' : Char) = ':') := by decide
        simp [hne]
        rfl
      · have hcst : hasDC (e :: t) = false := by
          rw [het, hasDC_cons_cons] at h
          exact (Bool.or_eq_false_iff.1 h).2
        have hce : (c = ':' && e = ':') = false := by
          rw [het, hasDC_cons_cons] at h
          exact (Bool.or_eq_false_iff.1 h).1
        have ihh := ih (het ▸ hcst)
        rw [h1] at ihh
        rw [h1, hasDC_cons_cons, hce, ihh]
        rfl

theorem all_ne_nl_dropLast (l : PyStr) (h : '\n' ∉ l) :
    l.dropLast.all (· ≠ '\n') = true := by
  rw [List.all_eq_true]
  intro c hc
  have hcl : c ∈ l := List.Sublist.mem hc (List.dropLast_sublist l)
  exact decide_eq_true fun heq => h (heq ▸ hcl)

theorem numSuffixMatch_iff (u : PyStr) :
    numSuffixMatch u = true
      ↔ ∃ d1 d2 rest, u = '_' :: d1 :: d2 :: rest
          ∧ pyDigit d1 = true ∧ pyDigit d2 = true
          ∧ rest.dropLast.all (· ≠ '\n') = true := by
  rw [numSuffixMatch.eq_def]
  split
  · rename_i d1 d2 rest
    constructor
    · intro h
      rw [Bool.and_eq_true, Bool.and_eq_true] at h
      exact ⟨d1, d2, rest, rfl, h.1.1, h.1.2, h.2⟩
    · rintro ⟨d1', d2', rest', heq, h1, h2, h3⟩
      obtain ⟨-, heq⟩ := List.cons.injEq .. ▸ heq
      obtain ⟨h4, heq⟩ := List.cons.injEq .. ▸ heq
      obtain ⟨h5, h6⟩ := List.cons.injEq .. ▸ heq
      rw [h4, h5, h6, h1, h2, h3]
      rfl
  · rename_i hno
    constructor
    · intro h
      exact absurd h (by simp)
    · rintro ⟨d1, d2, rest, heq, -, -, -⟩
      exact absurd rfl (heq ▸ hno d1 d2 rest)

theorem numSuffixMatch_transfer (c : Char) (v : PyStr) (h : '\n' ∉ v)
    (hm : numSuffixMatch (c :: subNumSuffix v) = true) :
    numSuffixMatch (c :: v) = true := by
  rcases (numSuffixMatch_iff _).1 hm with ⟨d1, d2, rest, heq, h1, h2, -⟩
  obtain ⟨hc, heq2⟩ := List.cons.injEq .. ▸ heq
  rcases subNumSuffix_shape v with hs | hs | ⟨e, t, het, hs, -⟩
  · rw [hs] at heq2
    exact absurd heq2 (by simp)
  · have hpre := subNumSuffix_prefix v h
    rw [hs] at hpre
    exact absurd (hpre.subset (List.mem_singleton_self '\n')) h
  · rw [hs] at heq2
    obtain ⟨he, heq3⟩ := List.cons.injEq .. ▸ heq2
    have ht_nl : '\n' ∉ t := fun hh => h (het ▸ List.mem_cons_of_mem _ hh)
    rcases subNumSuffix_shape t with hs2 | hs2 | ⟨f, t2, het2, hs2, -⟩
    · rw [hs2] at heq3
      exact absurd heq3 (by simp)
    · have hpre := subNumSuffix_prefix t ht_nl
      rw [hs2] at hpre
      exact absurd (hpre.subset (List.mem_singleton_self '\n')) ht_nl
    · rw [hs2] at heq3
      obtain ⟨hf, -⟩ := List.cons.injEq .. ▸ heq3
      rw [het, het2]
      apply (numSuffixMatch_iff _).2
      refine ⟨d1, d2, t2, by rw [hc, he, hf], h1, h2, ?_⟩
      have ht2_nl : '\n' ∉ t2 := fun hh => ht_nl (het2 ▸ List.mem_cons_of_mem _ hh)
      exact all_ne_nl_dropLast t2 ht2_nl

theorem subNumSuffix_idem (u : PyStr) (h : '\n' ∉ u) :
    subNumSuffix (subNumSuffix u) = subNumSuffix u := by
  induction u with
  | nil => rfl
  | cons c cs ih =>
    by_cases hm : numSuffixMatch (c :: cs)
    · have hl : ¬ (c :: cs).getLast? = some '\n' :=
        fun hl => h (List.mem_of_getLast?_eq_some hl)
      rw [show subNumSuffix (c :: cs) = [] from by simp [subNumSuffix, hm, hl]]
      rfl
    · rw [show subNumSuffix (c :: cs) = c :: subNumSuffix cs from by
        simp [subNumSuffix, hm]]
      have hcs : '\n' ∉ cs := fun hh => h (List.mem_cons_of_mem _ hh)
      have hm2 : ¬ numSuffixMatch (c :: subNumSuffix cs) = true :=
        fun hmm2 => hm (numSuffixMatch_transfer c cs hcs hmm2)
      rw [show subNumSuffix (c :: subNumSuffix cs)
        = c :: subNumSuffix (subNumSuffix cs) from by simp [subNumSuffix, hm2]]
      rw [ih hcs]

theorem mem_takeBeforeLB (s : PyStr) (c : Char) (h : c ∈ takeBeforeLB s) : c ∈ s :=
  List.Sublist.mem h (List.takeWhile_sublist _)

theorem not_lb_takeBeforeLB (s : PyStr) : '[' ∉ takeBeforeLB s := by
  intro h
  have h2 := List.mem_takeWhile_imp h
  simp at h2

theorem takeBeforeLB_eq_self (s : PyStr) (h : '[' ∉ s) : takeBeforeLB s = s := by
  unfold takeBeforeLB
  rw [List.takeWhile_eq_self_iff]
  intro x hx
  exact decide_eq_true fun heq => h (heq ▸ hx)

theorem normalize_eq_of_split (s : PyStr) (init : List PyStr) (lastEl : PyStr)
    (h : splitDC (takeBeforeLB s) = init ++ [lastEl]) :
    _normalize_test_name s = joinDC (init ++ [subNumSuffix lastEl]) := by
  simp only [_normalize_test_name]
  rw [h, if_neg (by simp : ¬(init ++ [lastEl] = [])),
    show (init ++ [lastEl]).dropLast = init from by simp,
    show (init ++ [lastEl]).getLastD [] = lastEl from by simp]

/-- Claim C5 as amended: the Name Normalizer is total, and it is idempotent
on every string that contains no newline character (the `$` anchor of the
numeric-suffix regex also matches before a final newline, which breaks
idempotence only for strings with embedded newlines; test identifiers,
produced one per line, never contain one). -/
theorem c5_normalize_idem (s : PyStr) (h : '\n' ∉ s) :
    _normalize_test_name (_normalize_test_name s) = _normalize_test_name s := by
  obtain ⟨init, lastEl, hsplit⟩ :
      ∃ init lastEl, splitDC (takeBeforeLB s) = init ++ [lastEl] := by
    rcases List.eq_nil_or_concat (splitDC (takeBeforeLB s)) with h1 | ⟨init, lastEl, h1⟩
    · exact absurd h1 (splitDC_ne_nil _)
    · exact ⟨init, lastEl, by rw [h1, List.concat_eq_append]⟩
  have hn1 := normalize_eq_of_split s init lastEl hsplit
  have hbase_nl : '\n' ∉ takeBeforeLB s := fun hc => h (mem_takeBeforeLB s '\n' hc)
  have hbase_lb : '[' ∉ takeBeforeLB s := not_lb_takeBeforeLB s
  have hlast_mem : lastEl ∈ splitDC (takeBeforeLB s) := by
    rw [hsplit]
    exact List.mem_append_right _ (List.mem_singleton_self _)
  have hlast_nl : '\n' ∉ lastEl :=
    fun hc => hbase_nl (splitDC_mem_chars _ _ hlast_mem _ hc)
  have hlast_dc : hasDC lastEl = false := splitDC_hasDC _ _ hlast_mem
  have hsub_pre := subNumSuffix_prefix lastEl hlast_nl
  have hnew_dc : ∀ p ∈ init ++ [subNumSuffix lastEl], hasDC p = false := by
    intro p hp
    rcases List.mem_append.1 hp with h1 | h1
    · exact splitDC_hasDC _ _ (by
        rw [hsplit]
        exact List.mem_append_left _ h1)
    · rw [List.mem_singleton.1 h1]
      exact hasDC_subNumSuffix lastEl hlast_dc
  have hnew_last : ∀ p ∈ (init ++ [subNumSuffix lastEl]).dropLast,
      p.getLast? ≠ some ':' := by
    intro p hp
    rw [show (init ++ [subNumSuffix lastEl]).dropLast = init from by simp] at hp
    refine splitDC_dropLast_getLast (takeBeforeLB s) p ?_
    rw [hsplit, show (init ++ [lastEl]).dropLast = init from by simp]
    exact hp
  have hns_lb : '[' ∉ _normalize_test_name s := by
    rw [hn1]
    intro hc
    rcases joinDC_mem _ '[' hc with ⟨p, hp, hcp⟩ | h1
    · rcases List.mem_append.1 hp with h1 | h1
      · exact hbase_lb (splitDC_mem_chars _ _ (by
          rw [hsplit]
          exact List.mem_append_left _ h1) _ hcp)
      · rw [List.mem_singleton.1 h1] at hcp
        exact hbase_lb (splitDC_mem_chars _ _ hlast_mem _ (hsub_pre.subset hcp))
    · exact absurd h1 (by decide)
  have hsplit2 : splitDC (takeBeforeLB (_normalize_test_name s))
      = init ++ [subNumSuffix lastEl] := by
    rw [takeBeforeLB_eq_self _ hns_lb, hn1]
    exact splitDC_joinDC _ (by simp) hnew_dc hnew_last
  have hn2 := normalize_eq_of_split (_normalize_test_name s) init
    (subNumSuffix lastEl) hsplit2
  rw [hn2, hn1, subNumSuffix_idem lastEl hlast_nl]

/-- Witness for claim C5 at concrete newline-free inputs. -/
theorem c5_witness :
    ('\n' ∉ "tests/x.py::test_foo_042[a-b]".data)
    ∧ _normalize_test_name (_normalize_test_name "tests/x.py::test_foo_042[a-b]".data)
        = _normalize_test_name "tests/x.py::test_foo_042[a-b]".data :=
  ⟨by decide, c5_normalize_idem "tests/x.py::test_foo_042[a-b]".data (by decide)⟩
